import Mathlib

/-!
Verification development for the wasmfun WebAssembly module writer and its
structured-control-flow compiler.

The repository's documentation (notes.md, README.md) and its notebook callers
describe the object model, the binary encoder and the tape-machine compiler;
the executable core itself is not among the sources available here, so the
definitions below are modelled from the specification's description of that
core (variable-length integer encoding, instruction encoding, section and
module assembly, name-to-index resolution, and the bracket-loop compiler).
Each definition's doc comment records what it models.
-/

set_option maxRecDepth 8000

namespace Wasmfun

/-! ## Variable-length (base-128, little-endian, continuation-bit) integers -/

/-- Fuel-indexed worker for the unsigned encoder.  The fuel only bounds the
recursion depth; `unsigned_leb128` always supplies enough of it. -/
def ulebAux : Nat → Nat → List Nat
  | 0, v => [v % 128]
  | fuel + 1, v =>
    if v < 128 then [v % 128]
    else (v % 128 + 128) :: ulebAux fuel (v / 128)

/-- Modelled from the spec: the unsigned variable-length integer encoder
(base 128, little-endian, one continuation bit per byte).  Each byte carries
the next 7 payload bits; the high bit is set on every byte except the last. -/
def unsigned_leb128 (v : Nat) : List Nat :=
  ulebAux v v

/-- Fuel-indexed worker for the signed encoder.  Division by 128 on `Int` is
floor division, i.e. an arithmetic shift right by 7 bits, so the value
shrinks toward 0 or -1; the last byte is the one whose bit 6 already equals
the sign of the remaining value. -/
def slebAux : Nat → Int → List Nat
  | 0, v => [(v % 128).toNat]
  | fuel + 1, v =>
    if (v / 128 = 0 ∧ (v % 128).toNat < 64) ∨ (v / 128 = -1 ∧ 64 ≤ (v % 128).toNat) then
      [(v % 128).toNat]
    else ((v % 128).toNat + 128) :: slebAux fuel (v / 128)

/-- Modelled from the spec: the signed variable-length integer encoder; the
encoding sign-extends through the last byte. -/
def signed_leb128 (v : Int) : List Nat :=
  slebAux v.natAbs v

/-- Modelled from the spec: the unsigned decoder, reading 7 payload bits per
byte, little-endian. -/
def leb128_decode_unsigned : List Nat → Nat
  | [] => 0
  | b :: rest => b % 128 + 128 * leb128_decode_unsigned rest

/-- Modelled from the spec: the signed decoder; the payload of the last byte
is sign-extended (bit 6 of the last byte is the sign bit). -/
def leb128_decode_signed : List Nat → Int
  | [] => 0
  | b :: rest =>
    if rest = [] then
      (if b % 128 < 64 then ((b % 128 : Nat) : Int) else ((b % 128 : Nat) : Int) - 128)
    else ((b % 128 : Nat) : Int) + 128 * leb128_decode_signed rest

theorem ulebAux_roundtrip : ∀ (fuel v : Nat), v ≤ fuel →
    leb128_decode_unsigned (ulebAux fuel v) = v := by
  intro fuel
  induction fuel with
  | zero =>
    intro v hv
    have hv0 : v = 0 := Nat.le_zero.mp hv
    subst hv0
    rfl
  | succ fuel ih =>
    intro v hv
    rw [ulebAux]
    split
    · simp only [leb128_decode_unsigned]
      omega
    · rename_i h
      have hrec : v / 128 ≤ fuel := by omega
      simp only [leb128_decode_unsigned, ih (v / 128) hrec]
      omega

theorem unsigned_leb128_roundtrip (v : Nat) :
    leb128_decode_unsigned (unsigned_leb128 v) = v :=
  ulebAux_roundtrip v v (Nat.le_refl v)

theorem slebAux_ne_nil (fuel : Nat) (v : Int) : slebAux fuel v ≠ [] := by
  cases fuel with
  | zero => simp [slebAux]
  | succ fuel =>
    rw [slebAux]
    split <;> simp

theorem sleb_shrinks (v : Int)
    (h : ¬((v / 128 = 0 ∧ (v % 128).toNat < 64) ∨ (v / 128 = -1 ∧ 64 ≤ (v % 128).toNat))) :
    (v / 128).natAbs < v.natAbs := by
  have h2 := Int.ediv_add_emod v 128
  have h3 := Int.emod_nonneg v (by norm_num : (128 : Int) ≠ 0)
  have h4 := Int.emod_lt_of_pos v (by norm_num : (0 : Int) < 128)
  omega

theorem slebAux_roundtrip : ∀ (fuel : Nat) (v : Int), v.natAbs ≤ fuel →
    leb128_decode_signed (slebAux fuel v) = v := by
  intro fuel
  induction fuel with
  | zero =>
    intro v hv
    have hv0 : v = 0 := by omega
    subst hv0
    rfl
  | succ fuel ih =>
    intro v hv
    have h2 := Int.ediv_add_emod v 128
    have h3 := Int.emod_nonneg v (by norm_num : (128 : Int) ≠ 0)
    have h4 := Int.emod_lt_of_pos v (by norm_num : (0 : Int) < 128)
    rw [slebAux]
    split
    · rename_i hterm
      have hm : (v % 128).toNat % 128 = (v % 128).toNat := Nat.mod_eq_of_lt (by omega)
      simp only [leb128_decode_signed, hm, if_true]
      rcases hterm with ⟨hq, hb⟩ | ⟨hq, hb⟩
      · rw [if_pos (by omega : (v % 128).toNat < 64)]
        omega
      · rw [if_neg (by omega : ¬ (v % 128).toNat < 64)]
        omega
    · rename_i hterm
      have hrec : (v / 128).natAbs ≤ fuel := by
        have := sleb_shrinks v hterm
        omega
      simp only [leb128_decode_signed, if_neg (slebAux_ne_nil fuel (v / 128)),
        ih (v / 128) hrec]
      omega

theorem signed_leb128_roundtrip (v : Int) :
    leb128_decode_signed (signed_leb128 v) = v :=
  slebAux_roundtrip v.natAbs v (Nat.le_refl _)

/-- C1: for every unsigned and every signed integer value, decoding the
variable-length base-128 little-endian continuation-bit encoding of the value
yields the value back; in particular this holds at every boundary value
(0, 63/64, 127/128, and the extreme representable values of any width), and
the signed variant sign-extends through the last byte. -/
theorem leb128_roundtrip_law :
    (∀ v : Nat, leb128_decode_unsigned (unsigned_leb128 v) = v) ∧
    (∀ v : Int, leb128_decode_signed (signed_leb128 v) = v) :=
  ⟨unsigned_leb128_roundtrip, signed_leb128_roundtrip⟩

/-! ## Value types, instructions and the instruction encoder -/

/-- Modelled from the spec: the value types of the target format. -/
inductive ValueType where
  | i32
  | i64
  | f32
  | f64
deriving DecidableEq

/-- Binary tag of a value type, fixed by the target binary format. -/
def ValueType.tag : ValueType → Nat
  | .i32 => 0x7f
  | .i64 => 0x7e
  | .f32 => 0x7d
  | .f64 => 0x7c

/-- Modelled from the spec: the result type of a block-like instruction,
either a value type or the empty block type ('emptyblock'). -/
inductive BlockType where
  | emptyblock
  | val (t : ValueType)
deriving DecidableEq

/-- Binary tag of a block result type. -/
def BlockType.tag : BlockType → Nat
  | .emptyblock => 0x40
  | .val t => t.tag

/-- Modelled from the spec: the Instruction model, a closed tagged type with
an opcode kind, immediate operands and, for block-like operations only,
nested child instruction sequences.  Call targets are the symbolic function
names used by producers; the Index Resolver maps them to numeric indices. -/
inductive Instr where
  | unreachable
  | nop
  | block (rt : BlockType) (body : List Instr)
  | loop (rt : BlockType) (body : List Instr)
  | if_ (rt : BlockType) (thenBody elseBody : List Instr)
  | br (depth : Nat)
  | br_if (depth : Nat)
  | call (target : String)
  | get_local (idx : Nat)
  | set_local (idx : Nat)
  | tee_local (idx : Nat)
  | i32_load8_u (align offs : Nat)
  | i32_store8 (align offs : Nat)
  | i32_const (v : Int)
  | i64_const (v : Int)
  | i32_eqz
  | i32_add
  | i32_sub

/-- Modelled from the spec: the Index Resolver's lookup, from a symbolic
name to its position in the function index space (the ordered name list). -/
def resolveFunc (env : List String) (n : String) : Option Nat :=
  if n ∈ env then some (List.indexOf n env) else none

mutual

/-- Modelled from the spec: the instruction encoder.  `env` is the resolved
function index space and `scopes` the number of currently open nested scopes.
A block-opening instruction encodes its opcode byte, its result-type tag, the
encodings of its children in order, and then the fixed terminator byte 0x0b,
supplied here at encoding time.  An operand out of the representable range of
its declared width, a branch depth not below `scopes`, or an unresolvable
call target make the whole encoding fail, before any bytes are produced. -/
def encodeInstr (env : List String) (scopes : Nat) : Instr → Option (List Nat)
  | .unreachable => some [0x00]
  | .nop => some [0x01]
  | .block rt body =>
    match encodeSeq env (scopes + 1) body with
    | some bs => some (0x02 :: rt.tag :: (bs ++ [0x0b]))
    | none => none
  | .loop rt body =>
    match encodeSeq env (scopes + 1) body with
    | some bs => some (0x03 :: rt.tag :: (bs ++ [0x0b]))
    | none => none
  | .if_ rt thenBody elseBody =>
    match encodeSeq env (scopes + 1) thenBody, encodeSeq env (scopes + 1) elseBody with
    | some tb, some eb =>
      some (0x04 :: rt.tag ::
        (tb ++ (if elseBody.isEmpty then [] else 0x05 :: eb) ++ [0x0b]))
    | _, _ => none
  | .br depth => if depth < scopes then some (0x0c :: unsigned_leb128 depth) else none
  | .br_if depth => if depth < scopes then some (0x0d :: unsigned_leb128 depth) else none
  | .call target =>
    match resolveFunc env target with
    | some i => if i < 2 ^ 32 then some (0x10 :: unsigned_leb128 i) else none
    | none => none
  | .get_local idx => if idx < 2 ^ 32 then some (0x20 :: unsigned_leb128 idx) else none
  | .set_local idx => if idx < 2 ^ 32 then some (0x21 :: unsigned_leb128 idx) else none
  | .tee_local idx => if idx < 2 ^ 32 then some (0x22 :: unsigned_leb128 idx) else none
  | .i32_load8_u align offs =>
    if align < 2 ^ 32 ∧ offs < 2 ^ 32 then
      some (0x2d :: (unsigned_leb128 align ++ unsigned_leb128 offs))
    else none
  | .i32_store8 align offs =>
    if align < 2 ^ 32 ∧ offs < 2 ^ 32 then
      some (0x3a :: (unsigned_leb128 align ++ unsigned_leb128 offs))
    else none
  | .i32_const v =>
    if -(2 ^ 31) ≤ v ∧ v < 2 ^ 31 then some (0x41 :: signed_leb128 v) else none
  | .i64_const v =>
    if -(2 ^ 63) ≤ v ∧ v < 2 ^ 63 then some (0x42 :: signed_leb128 v) else none
  | .i32_eqz => some [0x45]
  | .i32_add => some [0x6a]
  | .i32_sub => some [0x6b]

/-- Encoding of an instruction sequence: concatenation of the encodings,
failing as soon as any one instruction fails. -/
def encodeSeq (env : List String) (scopes : Nat) : List Instr → Option (List Nat)
  | [] => some []
  | i :: rest =>
    match encodeInstr env scopes i, encodeSeq env scopes rest with
    | some a, some b => some (a ++ b)
    | _, _ => none

end

mutual

/-- Modelled from the spec: the construction-time validity check mirrored by
the encoder; true exactly when every operand fits the representable range of
its declared width, every branch depth is below the number of open scopes,
and every call target resolves. -/
def instrValid (env : List String) (scopes : Nat) : Instr → Bool
  | .unreachable => true
  | .nop => true
  | .block _ body => seqValid env (scopes + 1) body
  | .loop _ body => seqValid env (scopes + 1) body
  | .if_ _ thenBody elseBody =>
    seqValid env (scopes + 1) thenBody && seqValid env (scopes + 1) elseBody
  | .br depth => decide (depth < scopes)
  | .br_if depth => decide (depth < scopes)
  | .call target =>
    match resolveFunc env target with
    | some i => decide (i < 2 ^ 32)
    | none => false
  | .get_local idx => decide (idx < 2 ^ 32)
  | .set_local idx => decide (idx < 2 ^ 32)
  | .tee_local idx => decide (idx < 2 ^ 32)
  | .i32_load8_u align offs => decide (align < 2 ^ 32 ∧ offs < 2 ^ 32)
  | .i32_store8 align offs => decide (align < 2 ^ 32 ∧ offs < 2 ^ 32)
  | .i32_const v => decide (-(2 ^ 31) ≤ v ∧ v < 2 ^ 31)
  | .i64_const v => decide (-(2 ^ 63) ≤ v ∧ v < 2 ^ 63)
  | .i32_eqz => true
  | .i32_add => true
  | .i32_sub => true

/-- Validity of an instruction sequence. -/
def seqValid (env : List String) (scopes : Nat) : List Instr → Bool
  | [] => true
  | i :: rest => instrValid env scopes i && seqValid env scopes rest

end

mutual

theorem encodeInstr_isSome (env : List String) (scopes : Nat) (i : Instr) :
    (encodeInstr env scopes i).isSome = instrValid env scopes i := by
  cases i with
  | block rt body =>
    have h := encodeSeq_isSome env (scopes + 1) body
    simp only [encodeInstr, instrValid]
    cases hb : encodeSeq env (scopes + 1) body <;> rw [hb] at h <;>
      simp at h ⊢ <;> simp [h]
  | loop rt body =>
    have h := encodeSeq_isSome env (scopes + 1) body
    simp only [encodeInstr, instrValid]
    cases hb : encodeSeq env (scopes + 1) body <;> rw [hb] at h <;>
      simp at h ⊢ <;> simp [h]
  | if_ rt thenBody elseBody =>
    have ht := encodeSeq_isSome env (scopes + 1) thenBody
    have he := encodeSeq_isSome env (scopes + 1) elseBody
    simp only [encodeInstr, instrValid]
    cases hb : encodeSeq env (scopes + 1) thenBody <;>
      cases hc : encodeSeq env (scopes + 1) elseBody <;>
        rw [hb] at ht <;> rw [hc] at he <;>
          simp at ht he ⊢ <;> simp [ht, he]
  | call target =>
    simp only [encodeInstr, instrValid]
    cases resolveFunc env target <;> simp <;> split <;> simp_all
  | br depth =>
    simp only [encodeInstr, instrValid]
    split <;> simp_all
  | br_if depth =>
    simp only [encodeInstr, instrValid]
    split <;> simp_all
  | get_local idx =>
    simp only [encodeInstr, instrValid]
    split <;> simp_all
  | set_local idx =>
    simp only [encodeInstr, instrValid]
    split <;> simp_all
  | tee_local idx =>
    simp only [encodeInstr, instrValid]
    split <;> simp_all
  | i32_load8_u align offs =>
    simp only [encodeInstr, instrValid]
    split <;> simp_all
  | i32_store8 align offs =>
    simp only [encodeInstr, instrValid]
    split <;> simp_all
  | i32_const v =>
    simp only [encodeInstr, instrValid]
    split <;> simp_all
  | i64_const v =>
    simp only [encodeInstr, instrValid]
    split <;> simp_all
  | unreachable => rfl
  | nop => rfl
  | i32_eqz => rfl
  | i32_add => rfl
  | i32_sub => rfl

theorem encodeSeq_isSome (env : List String) (scopes : Nat) (l : List Instr) :
    (encodeSeq env scopes l).isSome = seqValid env scopes l := by
  cases l with
  | nil => rfl
  | cons i rest =>
    have h1 := encodeInstr_isSome env scopes i
    have h2 := encodeSeq_isSome env scopes rest
    simp only [encodeSeq, seqValid]
    cases ha : encodeInstr env scopes i <;> cases hb : encodeSeq env scopes rest <;>
      rw [ha] at h1 <;> rw [hb] at h2 <;>
        simp at h1 h2 ⊢ <;> simp [h1, h2]

end

/-! ## Sections and the module assembler -/

/-- Modelled from the spec: a function signature, an ordered parameter type
list and an ordered return type list; identity is structural. -/
structure FunctionSig where
  params : List ValueType
  returns : List ValueType
deriving DecidableEq

/-- Modelled from the spec and the notes.md class listing
`Import(modname, fieldname, kind, type)`, restricted to function imports (the
only kind the front ends of this repository produce): module name, field
name, and the type-section index of the signature. -/
structure ImportEntry where
  modname : String
  fieldname : String
  typeIdx : Nat
deriving DecidableEq

/-- Modelled from the notes.md class listing `Export(name, kind, index)`;
the kind is kept as its binary tag byte. -/
structure ExportEntry where
  name : String
  kind : Nat
  index : Nat
deriving DecidableEq

/-- Modelled from the notes.md class listing `FunctionDef(locals, *instructions)`:
the ordered extra local types and the body instructions. -/
structure FunctionDef where
  locals : List ValueType
  body : List Instr

/-- Modelled from the spec: one constructor per module section kind, each
holding the homogeneous ordered list of its entries.  Table, global and
element sections carry no payload in the subset this repository's front ends
use. -/
inductive Section where
  | typeSec (sigs : List FunctionSig)
  | importSec (imports : List ImportEntry)
  | functionSec (indices : List Nat)
  | tableSec
  | memorySec (entries : List Nat)
  | globalSec
  | exportSec (exports : List ExportEntry)
  | startSec (index : Nat)
  | elementSec
  | codeSec (defs : List FunctionDef)
  | dataSec (chunks : List (Nat × List Nat))

/-- Modelled from the spec: a module is the collection of sections the caller
assembled, in whatever order the caller added them. -/
structure Module where
  sections : List Section

/-- Section-id byte of each section kind, fixed by the target binary format;
the canonical assembly order is the increasing order of these ids. -/
def Section.kindId : Section → Nat
  | .typeSec _ => 1
  | .importSec _ => 2
  | .functionSec _ => 3
  | .tableSec => 4
  | .memorySec _ => 5
  | .globalSec => 6
  | .exportSec _ => 7
  | .startSec _ => 8
  | .elementSec => 9
  | .codeSec _ => 10
  | .dataSec _ => 11

/-- The canonical section order Type, Import, Function, Table, Memory,
Global, Export, Start, Element, Code, Data, by section-id byte. -/
def kindIds : List Nat := [1, 2, 3, 4, 5, 6, 7, 8, 9, 10, 11]

/-- Modelled from the spec: UTF-8 length-prefixed encoding of a name. -/
def encodeStr (s : String) : List Nat :=
  let bytes := (s.data.map String.utf8EncodeChar).flatten.map UInt8.toNat
  unsigned_leb128 bytes.length ++ bytes

/-- Entry encoding of a function signature: the function-type tag 0x60, the
length-prefixed parameter type tags, the length-prefixed return type tags. -/
def encodeSig (sg : FunctionSig) : List Nat :=
  0x60 :: (unsigned_leb128 sg.params.length ++ sg.params.map ValueType.tag ++
    unsigned_leb128 sg.returns.length ++ sg.returns.map ValueType.tag)

/-- Entry encoding of a function import: module name, field name, the
function import kind byte 0x00, and the type index. -/
def encodeImport (im : ImportEntry) : List Nat :=
  encodeStr im.modname ++ encodeStr im.fieldname ++ [0x00] ++ unsigned_leb128 im.typeIdx

/-- Entry encoding of an export: name, kind byte, index. -/
def encodeExport (ex : ExportEntry) : List Nat :=
  encodeStr ex.name ++ [ex.kind] ++ unsigned_leb128 ex.index

/-- Entry encoding of a data chunk: memory index 0, an `i32.const` offset
initializer closed by the terminator byte, then the length-prefixed bytes. -/
def encodeChunk (ch : Nat × List Nat) : List Nat :=
  0x00 :: 0x41 :: (signed_leb128 ch.1 ++ [0x0b] ++ unsigned_leb128 ch.2.length ++ ch.2)

/-- Modelled from the spec: the code-section entry for one function body:
the declared locals (one run per local), the encoded body instructions, the
closing terminator byte, all length-prefixed.  The function body itself
counts as one open scope.  Fails exactly when the body fails to encode. -/
def encodeFuncDef (env : List String) (fd : FunctionDef) : Option (List Nat) :=
  match encodeSeq env 1 fd.body with
  | some body =>
    let locs := unsigned_leb128 fd.locals.length ++
      (fd.locals.map (fun t => unsigned_leb128 1 ++ [t.tag])).flatten
    let payload := locs ++ body ++ [0x0b]
    some (unsigned_leb128 payload.length ++ payload)
  | none => none

/-- Concatenated code-section entries, failing as soon as one body fails. -/
def encodeFuncDefs (env : List String) : List FunctionDef → Option (List Nat)
  | [] => some []
  | fd :: rest =>
    match encodeFuncDef env fd, encodeFuncDefs env rest with
    | some a, some b => some (a ++ b)
    | _, _ => none

/-- Modelled from the spec: the payload of one section, an entry count
followed by the per-entry encodings. -/
def sectionPayload (env : List String) : Section → Option (List Nat)
  | .typeSec sigs => some (unsigned_leb128 sigs.length ++ (sigs.map encodeSig).flatten)
  | .importSec imports =>
    some (unsigned_leb128 imports.length ++ (imports.map encodeImport).flatten)
  | .functionSec indices =>
    some (unsigned_leb128 indices.length ++ (indices.map unsigned_leb128).flatten)
  | .tableSec => some [0]
  | .memorySec entries =>
    some (unsigned_leb128 entries.length ++
      (entries.map (fun mn => 0x00 :: unsigned_leb128 mn)).flatten)
  | .globalSec => some [0]
  | .exportSec exports =>
    some (unsigned_leb128 exports.length ++ (exports.map encodeExport).flatten)
  | .startSec index => some (unsigned_leb128 index)
  | .elementSec => some [0]
  | .codeSec defs =>
    match encodeFuncDefs env defs with
    | some bs => some (unsigned_leb128 defs.length ++ bs)
    | none => none
  | .dataSec chunks =>
    some (unsigned_leb128 chunks.length ++ (chunks.map encodeChunk).flatten)

/-- Modelled from the spec: a section encodes as its section-id byte, the
variable-length encoding of its payload's byte length, then the payload. -/
def encodeSection (env : List String) (s : Section) : Option (List Nat) :=
  match sectionPayload env s with
  | some p => some (s.kindId :: (unsigned_leb128 p.length ++ p))
  | none => none

/-- Concatenated encodings of a list of sections. -/
def encodeSections (env : List String) : List Section → Option (List Nat)
  | [] => some []
  | s :: rest =>
    match encodeSection env s, encodeSections env rest with
    | some a, some b => some (a ++ b)
    | _, _ => none

/-- Bytes of all of a module's sections of one kind (in the caller's order
inside the kind, but a module holds at most one section of each kind). -/
def encodeKind (env : List String) (m : Module) (k : Nat) : Option (List Nat) :=
  encodeSections env (m.sections.filter (fun s => s.kindId == k))

/-- Bytes of the given kinds, emitted in the given order. -/
def encodeKinds (env : List String) (m : Module) : List Nat → Option (List Nat)
  | [] => some []
  | k :: ks =>
    match encodeKind env m k, encodeKinds env m ks with
    | some a, some b => some (a ++ b)
    | _, _ => none

/-- The fixed 4-byte identifying magic constant of the target format. -/
def wasmMagic : List Nat := [0x00, 0x61, 0x73, 0x6d]

/-- The fixed 4-byte version number of the target format. -/
def wasmVersion : List Nat := [0x01, 0x00, 0x00, 0x00]

/-- Modelled from the spec and the notebook caller `Module.to_bytes`: the
module assembler.  The output is the magic constant, the version number, and
the sections present in the module emitted in the fixed canonical order
regardless of the order the caller added them; absent kinds contribute
nothing.  Assembly is all-or-nothing: any encoding failure yields no bytes. -/
def Module.to_bytes (env : List String) (m : Module) : Option (List Nat) :=
  match encodeKinds env m kindIds with
  | some rest => some (wasmMagic ++ wasmVersion ++ rest)
  | none => none

/-- Modelled from the spec: construction-time validity of one section; only
code sections can carry invalid operands or branch depths. -/
def sectionValid (env : List String) : Section → Bool
  | .codeSec defs => defs.all (fun fd => seqValid env 1 fd.body)
  | _ => true

theorem encodeFuncDef_isSome (env : List String) (fd : FunctionDef) :
    (encodeFuncDef env fd).isSome = seqValid env 1 fd.body := by
  have h := encodeSeq_isSome env 1 fd.body
  simp only [encodeFuncDef]
  cases hb : encodeSeq env 1 fd.body <;> rw [hb] at h <;> simp at h ⊢ <;> simp [h]

theorem encodeFuncDefs_isSome (env : List String) (defs : List FunctionDef) :
    (encodeFuncDefs env defs).isSome = defs.all (fun fd => seqValid env 1 fd.body) := by
  induction defs with
  | nil => rfl
  | cons fd rest ih =>
    have h1 := encodeFuncDef_isSome env fd
    simp only [encodeFuncDefs, List.all_cons]
    cases ha : encodeFuncDef env fd <;> rw [ha] at h1 <;>
      cases hb : encodeFuncDefs env rest <;> rw [hb] at ih <;> simp_all

theorem encodeSection_isSome (env : List String) (s : Section) :
    (encodeSection env s).isSome = sectionValid env s := by
  cases s with
  | codeSec defs =>
    have h := encodeFuncDefs_isSome env defs
    simp only [encodeSection, sectionPayload, sectionValid]
    cases hb : encodeFuncDefs env defs <;> rw [hb] at h <;> simp_all
  | typeSec sigs => rfl
  | importSec imports => rfl
  | functionSec indices => rfl
  | tableSec => rfl
  | memorySec entries => rfl
  | globalSec => rfl
  | exportSec exports => rfl
  | startSec index => rfl
  | elementSec => rfl
  | dataSec chunks => rfl

theorem encodeSections_mem_isSome (env : List String) (l : List Section) (bs : List Nat)
    (h : encodeSections env l = some bs) :
    ∀ s ∈ l, (encodeSection env s).isSome := by
  induction l generalizing bs with
  | nil => intro s hs; cases hs
  | cons a rest ih =>
    intro s hs
    simp only [encodeSections] at h
    cases ha : encodeSection env a <;> rw [ha] at h
    · cases h
    · cases hb : encodeSections env rest <;> rw [hb] at h
      · cases h
      · rcases List.mem_cons.mp hs with rfl | hmem
        · simp [ha]
        · exact ih _ hb s hmem

theorem encodeKinds_mem_isSome (env : List String) (m : Module) (ks : List Nat)
    (bs : List Nat) (h : encodeKinds env m ks = some bs) :
    ∀ k ∈ ks, (encodeKind env m k).isSome := by
  induction ks generalizing bs with
  | nil => intro k hk; cases hk
  | cons a rest ih =>
    intro k hk
    simp only [encodeKinds] at h
    cases ha : encodeKind env m a <;> rw [ha] at h
    · cases h
    · cases hb : encodeKinds env m rest <;> rw [hb] at h
      · cases h
      · rcases List.mem_cons.mp hk with rfl | hmem
        · simp [ha]
        · exact ih _ hb k hmem

theorem kindId_mem_kindIds (s : Section) : s.kindId ∈ kindIds := by
  cases s <;> simp [Section.kindId, kindIds]

/-- C7: encoding fails fast on invalid input.  An instruction encodes to some
bytes exactly when every operand lies in the representable range of its
declared width, every branch depth is below the number of open scopes and
every call target resolves (no value is ever truncated or clamped into
range); and a module containing any invalid instruction assembles to no
output at all rather than to partial or corrupt bytes. -/
theorem encode_fail_fast :
    (∀ (env : List String) (scopes : Nat) (i : Instr),
      (encodeInstr env scopes i).isSome = true ↔ instrValid env scopes i = true) ∧
    (∀ (env : List String) (m : Module) (s : Section),
      s ∈ m.sections → sectionValid env s = false → Module.to_bytes env m = none) := by
  constructor
  · intro env scopes i
    rw [encodeInstr_isSome]
  · intro env m s hmem hbad
    cases h : Module.to_bytes env m with
    | none => rfl
    | some bs =>
      exfalso
      simp only [Module.to_bytes] at h
      cases hk : encodeKinds env m kindIds <;> rw [hk] at h
      · cases h
      · have h1 := encodeKinds_mem_isSome env m kindIds _ hk (Section.kindId s)
          (kindId_mem_kindIds s)
        simp only [encodeKind] at h1
        cases h2 : encodeSections env (m.sections.filter (fun t => t.kindId == s.kindId))
          <;> rw [h2] at h1
        · cases h1
        · have h3 := encodeSections_mem_isSome env _ _ h2 s
            (List.mem_filter.mpr ⟨hmem, by simp⟩)
          rw [encodeSection_isSome, hbad] at h3
          cases h3

theorem filter_kind_length_le_one (l : List Section) (k : Nat)
    (hnd : (l.map Section.kindId).Nodup) :
    (l.filter (fun s => s.kindId == k)).length ≤ 1 := by
  induction l with
  | nil => simp
  | cons a rest ih =>
    simp only [List.map_cons, List.nodup_cons] at hnd
    by_cases hk : a.kindId == k
    · have hnone : rest.filter (fun s => s.kindId == k) = [] := by
        rw [List.filter_eq_nil_iff]
        intro s hs
        have : a.kindId ≠ s.kindId := fun he => hnd.1 (he ▸ List.mem_map_of_mem _ hs)
        simp only [beq_iff_eq] at hk ⊢
        omega
      simp [List.filter_cons, hk, hnone]
    · simp only [List.filter_cons, hk, Bool.false_eq_true, if_false]
      exact ih hnd.2

theorem filter_kind_eq_of_perm (l1 l2 : List Section) (k : Nat)
    (hperm : l1.Perm l2) (hnd : (l2.map Section.kindId).Nodup) :
    l1.filter (fun s => s.kindId == k) = l2.filter (fun s => s.kindId == k) := by
  have hp := List.Perm.filter (fun s => s.kindId == k) hperm
  have hlen := filter_kind_length_le_one l2 k hnd
  cases h2 : l2.filter (fun s => s.kindId == k) with
  | nil =>
    rw [h2] at hp
    exact List.Perm.eq_nil hp
  | cons b tail =>
    rw [h2] at hp hlen
    cases tail with
    | nil => exact List.perm_singleton.mp hp
    | cons c tail2 => simp at hlen

theorem encodeKinds_congr (env : List String) (m1 m2 : Module) (ks : List Nat)
    (h : ∀ k, encodeKind env m1 k = encodeKind env m2 k) :
    encodeKinds env m1 ks = encodeKinds env m2 ks := by
  induction ks with
  | nil => rfl
  | cons a rest ih => simp only [encodeKinds, h a, ih]

theorem to_bytes_perm (env : List String) (m1 m2 : Module)
    (hperm : m1.sections.Perm m2.sections)
    (hnd : (m2.sections.map Section.kindId).Nodup) :
    Module.to_bytes env m1 = Module.to_bytes env m2 := by
  have hk : ∀ k, encodeKind env m1 k = encodeKind env m2 k := by
    intro k
    simp only [encodeKind, filter_kind_eq_of_perm m1.sections m2.sections k hperm hnd]
  simp only [Module.to_bytes, encodeKinds_congr env m1 m2 kindIds hk]

/-- C2: an assembled module starts with the fixed 4-byte magic constant and
the fixed 4-byte version number, followed by exactly the sections present in
the module emitted in the fixed canonical order Type, Import, Function,
Table, Memory, Global, Export, Start, Element, Code, Data (by strictly
increasing section id), regardless of the order in which the caller added
the sections; absent section kinds contribute no bytes. -/
theorem assemble_header_and_order (env : List String) (m : Module) (bs : List Nat)
    (h : Module.to_bytes env m = some bs)
    (hnd : (m.sections.map Section.kindId).Nodup) :
    (bs.take 8 = wasmMagic ++ wasmVersion ∧ wasmMagic.length = 4 ∧ wasmVersion.length = 4) ∧
    (∃ rest, encodeKinds env m kindIds = some rest ∧
      bs = wasmMagic ++ wasmVersion ++ rest) ∧
    List.Sorted (· < ·) kindIds ∧
    (∀ k, (∀ s ∈ m.sections, s.kindId ≠ k) → encodeKind env m k = some []) ∧
    (∀ m' : Module, m'.sections.Perm m.sections → Module.to_bytes env m' = some bs) := by
  simp only [Module.to_bytes] at h
  cases hk : encodeKinds env m kindIds <;> rw [hk] at h
  · cases h
  · rename_i rest
    cases h
    refine ⟨⟨?_, rfl, rfl⟩, ⟨rest, rfl, rfl⟩, by decide, ?_, ?_⟩
    · rw [show wasmMagic ++ wasmVersion ++ rest = (wasmMagic ++ wasmVersion) ++ rest by
        simp [List.append_assoc]]
      exact List.take_left' rfl
    · intro k hnone
      have : m.sections.filter (fun s => s.kindId == k) = [] := by
        rw [List.filter_eq_nil_iff]
        intro s hs
        simpa using hnone s hs
      simp [encodeKind, this, encodeSections]
    · intro m' hp
      rw [to_bytes_perm env m' m hp hnd]
      simp [Module.to_bytes, hk]

/-- C3: assembly is deterministic; it is a pure function of the module value
(and the resolved name environment), so equal module values assemble to
byte-identical output, with no dependence on time, randomness or iteration
order of any mutable container. -/
theorem assemble_deterministic (env : List String) (m1 m2 : Module) (h : m1 = m2) :
    Module.to_bytes env m1 = Module.to_bytes env m2 := by
  rw [h]

/-! ## The high-level construction API and the index resolver -/

/-- Modelled from the notebook caller: an imported function declaration with
its local symbolic name, its signature, and the host module/field names. -/
structure ImportedFunc where
  name : String
  params : List ValueType
  returns : List ValueType
  modname : String
  fieldname : String

/-- Modelled from the notebook caller: a locally defined function with its
symbolic name, signature, extra locals and body. -/
structure Func where
  name : String
  params : List ValueType
  returns : List ValueType
  locals : List ValueType
  body : List Instr

/-- Signature of an imported function. -/
def ImportedFunc.sig (im : ImportedFunc) : FunctionSig :=
  FunctionSig.mk im.params im.returns

/-- Signature of a locally defined function. -/
def Func.sig (f : Func) : FunctionSig :=
  FunctionSig.mk f.params f.returns

/-- Modelled from the spec: the function index space, the imported function
names in import order followed by the locally defined function names in
definition order. -/
def funcSpace (imps : List ImportedFunc) (fns : List Func) : List String :=
  imps.map ImportedFunc.name ++ fns.map Func.name

/-- Modelled from the spec: the module builder.  One type-section entry
per import then per local function, one import-section entry per import (typed
by its type index), a function section mapping the i-th local function to
the type entry after all imports, and a code section with one body per
local function, aligned 1-on-1 with the function section. -/
def buildModule (imps : List ImportedFunc) (fns : List Func) : Module :=
  Module.mk
    [Section.typeSec (imps.map ImportedFunc.sig ++ fns.map Func.sig),
     Section.importSec (imps.enum.map (fun pr =>
       ImportEntry.mk pr.2.modname pr.2.fieldname pr.1)),
     Section.functionSec ((List.range fns.length).map (fun j => imps.length + j)),
     Section.codeSec (fns.map (fun f => FunctionDef.mk f.locals f.body))]

/-- The type-section entries of a module (empty if the section is absent). -/
def Module.typeSigs (m : Module) : List FunctionSig :=
  (m.sections.filterMap (fun s =>
    match s with
    | Section.typeSec l => some l
    | _ => none)).headD []

/-- The function-section entries of a module. -/
def Module.functionIndices (m : Module) : List Nat :=
  (m.sections.filterMap (fun s =>
    match s with
    | Section.functionSec l => some l
    | _ => none)).headD []

/-- The code-section entries of a module. -/
def Module.codeDefs (m : Module) : List FunctionDef :=
  (m.sections.filterMap (fun s =>
    match s with
    | Section.codeSec l => some l
    | _ => none)).headD []

theorem resolveFunc_at_index (l : List String) (hnd : l.Nodup) (i : Nat)
    (h : i < l.length) : resolveFunc l l[i] = some i := by
  induction l generalizing i with
  | nil => cases h
  | cons a tl ih =>
    simp only [List.nodup_cons] at hnd
    cases i with
    | zero => simp [resolveFunc, List.indexOf_cons_self]
    | succ i =>
      have hi : i < tl.length := by simpa using h
      have hmem : tl[i] ∈ tl := List.getElem_mem hi
      have hne : tl[i] ≠ a := fun he => hnd.1 (he ▸ hmem)
      have ihr := ih hnd.2 i hi
      simp only [resolveFunc, if_pos hmem] at ihr
      have : (a :: tl)[i + 1] = tl[i] := by simp
      rw [this]
      simp only [resolveFunc, List.mem_cons, hmem, or_true, if_pos]
      rw [List.indexOf_cons_ne _ (Ne.symm hne)]
      simp only [Option.some.injEq] at ihr ⊢
      omega

/-- The second of two imported functions, used by the concrete call-site
scenario below. -/
def demoImports : List ImportedFunc :=
  [ImportedFunc.mk "print_first" [] [] "js" "print_first",
   ImportedFunc.mk "print_second" [] [] "js" "print_second"]

/-- One locally defined function whose body calls the second import. -/
def demoFuncs : List Func :=
  [Func.mk "$main" [] [] [] [Instr.call "print_second"]]

/-- C6: the function index space is the imported functions in import order
followed by the locally defined functions in definition order; resolving the
i-th import yields index i and the j-th local function yields index
(number of imports) + j.  In particular, in a module with two imported
functions and one local function calling the second import, the call site
encodes function index 1. -/
theorem function_index_space :
    (∀ (imps : List ImportedFunc) (fns : List Func) (i : Nat) (h : i < imps.length),
      (funcSpace imps fns).Nodup →
      resolveFunc (funcSpace imps fns) imps[i].name = some i) ∧
    (∀ (imps : List ImportedFunc) (fns : List Func) (j : Nat) (h : j < fns.length),
      (funcSpace imps fns).Nodup →
      resolveFunc (funcSpace imps fns) fns[j].name = some (imps.length + j)) ∧
    resolveFunc (funcSpace demoImports demoFuncs) "print_second" = some 1 ∧
    encodeInstr (funcSpace demoImports demoFuncs) 1 (Instr.call "print_second") =
      some [0x10, 1] := by
  refine ⟨?_, ?_, rfl, rfl⟩
  · intro imps fns i h hnd
    have hlen : i < (funcSpace imps fns).length := by
      simp [funcSpace]
      omega
    have := resolveFunc_at_index (funcSpace imps fns) hnd i hlen
    rwa [show (funcSpace imps fns)[i] = imps[i].name by
      simp [funcSpace, List.getElem_append_left, h]] at this
  · intro imps fns j h hnd
    have hlen : imps.length + j < (funcSpace imps fns).length := by
      simp [funcSpace]
      omega
    have := resolveFunc_at_index (funcSpace imps fns) hnd (imps.length + j) hlen
    rwa [show (funcSpace imps fns)[imps.length + j] = fns[j].name by
      simp only [funcSpace]
      rw [List.getElem_append_right (by simp)]
      simp] at this

/-- C10: in every module the builder produces, the function section and the
code section have the same number of entries and correspond 1-on-1 in order:
the i-th function-section entry is the type index of the i-th local
function's signature, and the i-th code-section entry is that function's
body. -/
theorem function_code_alignment (imps : List ImportedFunc) (fns : List Func)
    (i : Nat) (h : i < fns.length) :
    (buildModule imps fns).functionIndices.length =
      (buildModule imps fns).codeDefs.length ∧
    (buildModule imps fns).functionIndices[i]? = some (imps.length + i) ∧
    (buildModule imps fns).typeSigs[imps.length + i]? = some fns[i].sig ∧
    (buildModule imps fns).codeDefs[i]? = some (FunctionDef.mk fns[i].locals fns[i].body) := by
  have hfi : (buildModule imps fns).functionIndices =
      (List.range fns.length).map (fun j => imps.length + j) := by
    simp [buildModule, Module.functionIndices, List.filterMap]
  have hcd : (buildModule imps fns).codeDefs =
      fns.map (fun f => FunctionDef.mk f.locals f.body) := by
    simp [buildModule, Module.codeDefs, List.filterMap]
  have hts : (buildModule imps fns).typeSigs =
      imps.map ImportedFunc.sig ++ fns.map Func.sig := by
    simp [buildModule, Module.typeSigs, List.filterMap]
  refine ⟨?_, ?_, ?_, ?_⟩
  · rw [hfi, hcd]
    simp
  · rw [hfi, List.getElem?_map, List.getElem?_range h]
    rfl
  · rw [hts, List.getElem?_append_right (by simp)]
    simp [h]
  · rw [hcd, List.getElem?_map, List.getElem?_eq_getElem h]
    rfl

/-- C8: a scope-opening instruction is encoded as its opcode byte, its
result-type tag, the byte encodings of every child instruction in order, and
then the fixed terminator byte 0x0b supplied by the encoder itself at
encoding time (the producer appends no explicit end instruction); if/else
carries two child lists with the else marker between them; every child's
bytes lie strictly before the parent's terminator, so no child scope closes
after its parent. -/
theorem scope_terminator_encoding (env : List String) (scopes : Nat) (rt : BlockType)
    (body elseBody : List Instr) (bs eb : List Nat)
    (hb : encodeSeq env (scopes + 1) body = some bs)
    (he : encodeSeq env (scopes + 1) elseBody = some eb) :
    encodeInstr env scopes (Instr.block rt body) =
      some (0x02 :: rt.tag :: (bs ++ [0x0b])) ∧
    encodeInstr env scopes (Instr.loop rt body) =
      some (0x03 :: rt.tag :: (bs ++ [0x0b])) ∧
    encodeInstr env scopes (Instr.if_ rt body elseBody) =
      some (0x04 :: rt.tag ::
        (bs ++ (if elseBody.isEmpty then [] else 0x05 :: eb) ++ [0x0b])) ∧
    (0x02 :: rt.tag :: (bs ++ [0x0b])).getLast? = some 0x0b ∧
    (0x03 :: rt.tag :: (bs ++ [0x0b])).getLast? = some 0x0b := by
  refine ⟨?_, ?_, ?_, ?_, ?_⟩
  · simp [encodeInstr, hb]
  · simp [encodeInstr, hb]
  · simp [encodeInstr, hb, he]
  · rw [show (0x02 :: rt.tag :: (bs ++ [0x0b])) = (0x02 :: rt.tag :: bs) ++ [0x0b] by simp]
    exact List.getLast?_concat _
  · rw [show (0x03 :: rt.tag :: (bs ++ [0x0b])) = (0x03 :: rt.tag :: bs) ++ [0x0b] by simp]
    exact List.getLast?_concat _

/-! ## The structured-control-flow compiler for the tape-machine language -/

/-- Modelled from the spec: the 8 recognized command characters of the
tape-machine source language. -/
def bfCommands : List Char := ['>', '<', '+', '-', '.', ',', '[', ']']

/-- A character is a command; every other character is insignificant. -/
def isCmd (c : Char) : Bool := bfCommands.contains c

/-- Modelled from the spec: the instructions emitted for one non-bracket
command.  The tape pointer lives in local 0; increment and decrement store
through `i32.store8`, whose 8-bit truncation is the cells' wraparound; output
and input go through imported host functions.  Any non-command character
emits nothing. -/
def cmdInstrs (c : Char) : List Instr :=
  if c = '>' then
    [Instr.get_local 0, Instr.i32_const 1, Instr.i32_add, Instr.set_local 0]
  else if c = '<' then
    [Instr.get_local 0, Instr.i32_const 1, Instr.i32_sub, Instr.set_local 0]
  else if c = '+' then
    [Instr.get_local 0, Instr.get_local 0, Instr.i32_load8_u 0 0,
     Instr.i32_const 1, Instr.i32_add, Instr.i32_store8 0 0]
  else if c = '-' then
    [Instr.get_local 0, Instr.get_local 0, Instr.i32_load8_u 0 0,
     Instr.i32_const 1, Instr.i32_sub, Instr.i32_store8 0 0]
  else if c = '.' then
    [Instr.get_local 0, Instr.i32_load8_u 0 0, Instr.call "print"]
  else if c = ',' then
    [Instr.get_local 0, Instr.call "input", Instr.i32_store8 0 0]
  else []

/-- Modelled from the spec: the loop-entry test emitted right after a loop
opens: load the current cell and, if it is zero, branch out of the enclosing
`block`, at relative depth 1 as seen from inside the `loop`. -/
def loopEntry : List Instr :=
  [Instr.get_local 0, Instr.i32_load8_u 0 0, Instr.i32_eqz, Instr.br_if 1]

/-- Modelled from the spec: the back-edge test emitted at a loop's close:
reload the current cell and branch back to the `loop` label (relative depth
0) while it is nonzero. -/
def loopBack : List Instr :=
  [Instr.get_local 0, Instr.i32_load8_u 0 0, Instr.br_if 0]

/-- Closing a loop wraps the accumulated loop body (which starts with the
loop-entry test) and the back-edge test in a `loop` inside a `block`. -/
def closeLoop (body : List Instr) : Instr :=
  Instr.block BlockType.emptyblock
    [Instr.loop BlockType.emptyblock (body ++ loopBack)]

/-- Modelled from the spec: one open-loop marker on the compiler's explicit
loop-context stack: the source position of its `[` and the instructions
accumulated before the loop opened. -/
structure LoopCtx where
  pos : Nat
  before : List Instr

/-- Modelled from the spec: the two source errors, each naming the position
of the offending bracket. -/
inductive BfError where
  | unmatchedOpen (pos : Nat)
  | unmatchedClose (pos : Nat)
deriving DecidableEq

/-- Modelled from the spec: the compiler's main loop over the source text.
`out` is the instruction sequence of the innermost open context, `stack` the
explicit stack of open-loop markers, `p` the current source position.  A `[`
pushes a marker and starts a fresh body with the loop-entry test; a `]` pops
the marker and closes the loop; a `]` with no open loop is a source error at
its position.  The final stack is returned for the end-of-input check. -/
def bfRun : List Instr → List LoopCtx → Nat → List Char →
    Except BfError (List Instr × List LoopCtx)
  | out, stack, _, [] => Except.ok (out, stack)
  | out, stack, p, c :: rest =>
    if c = '[' then bfRun loopEntry (LoopCtx.mk p out :: stack) (p + 1) rest
    else if c = ']' then
      match stack with
      | [] => Except.error (BfError.unmatchedClose p)
      | ctx :: stack2 => bfRun (ctx.before ++ [closeLoop out]) stack2 (p + 1) rest
    else bfRun (out ++ cmdInstrs c) stack (p + 1) rest

/-- Modelled from the spec: the compiler.  It runs the main loop from an
empty output and an empty loop-context stack; at end of compilation the
loop-context stack must be empty, and a still-open loop is a source error
naming the position of its `[`. -/
def compileBf (src : List Char) : Except BfError (List Instr) :=
  match bfRun [] [] 0 src with
  | Except.error e => Except.error e
  | Except.ok (out, []) => Except.ok out
  | Except.ok (_, ctx :: _) => Except.error (BfError.unmatchedOpen ctx.pos)

/-- Bracket scan: the number of loops still open after the text, or `none`
as soon as a `]` appears with no loop open. -/
def bfBalance : Nat → List Char → Option Nat
  | d, [] => some d
  | d, c :: rest =>
    if c = '[' then bfBalance (d + 1) rest
    else if c = ']' then (if d = 0 then none else bfBalance (d - 1) rest)
    else bfBalance d rest

/-- A source program is well-bracketed when its bracket scan ends with no
loop open and never saw an unmatched `]`. -/
abbrev wellBracketed (src : List Char) : Prop := bfBalance 0 src = some 0

theorem bfRun_ok_of_balance : ∀ (rest : List Char) (out : List Instr)
    (stack : List LoopCtx) (p k : Nat), bfBalance stack.length rest = some k →
    ∃ out2 st2, bfRun out stack p rest = Except.ok (out2, st2) ∧ st2.length = k ∧
      (∀ ctx ∈ st2, ctx ∈ stack ∨ (p ≤ ctx.pos ∧ rest[ctx.pos - p]? = some '[')) := by
  intro rest
  induction rest with
  | nil =>
    intro out stack p k hbal
    simp only [bfBalance, Option.some.injEq] at hbal
    exact ⟨out, stack, rfl, hbal, fun ctx hc => Or.inl hc⟩
  | cons c rest ih =>
    intro out stack p k hbal
    by_cases hc1 : c = '['
    · simp only [bfBalance, if_pos hc1] at hbal
      obtain ⟨out2, st2, hrun, hlen, hpos⟩ :=
        ih loopEntry (LoopCtx.mk p out :: stack) (p + 1) k (by simpa using hbal)
      refine ⟨out2, st2, ?_, hlen, ?_⟩
      · simp only [bfRun, if_pos hc1]
        exact hrun
      · intro ctx hctx
        rcases hpos ctx hctx with hmem | ⟨hle, hget⟩
        · rcases List.mem_cons.mp hmem with rfl | hmem2
          · exact Or.inr ⟨Nat.le_refl _, by simp [hc1]⟩
          · exact Or.inl hmem2
        · refine Or.inr ⟨by omega, ?_⟩
          rw [show ctx.pos - p = (ctx.pos - (p + 1)) + 1 by omega]
          simpa using hget
    · by_cases hc2 : c = ']'
      · cases stack with
        | nil =>
          simp only [bfBalance, if_neg hc1, if_pos hc2, List.length_nil, eq_self_iff_true, if_true] at hbal
          cases hbal
        | cons ctx0 stack2 =>
          simp only [bfBalance, if_neg hc1, if_pos hc2, List.length_cons,
            Nat.add_sub_cancel, if_neg (Nat.succ_ne_zero _)] at hbal
          obtain ⟨out2, st2, hrun, hlen, hpos⟩ :=
            ih (ctx0.before ++ [closeLoop out]) stack2 (p + 1) k hbal
          refine ⟨out2, st2, ?_, hlen, ?_⟩
          · simp only [bfRun, if_neg hc1, if_pos hc2]
            exact hrun
          · intro ctx hctx
            rcases hpos ctx hctx with hmem | ⟨hle, hget⟩
            · exact Or.inl (List.mem_cons_of_mem _ hmem)
            · refine Or.inr ⟨by omega, ?_⟩
              rw [show ctx.pos - p = (ctx.pos - (p + 1)) + 1 by omega]
              simpa using hget
      · simp only [bfBalance, if_neg hc1, if_neg hc2] at hbal
        obtain ⟨out2, st2, hrun, hlen, hpos⟩ :=
          ih (out ++ cmdInstrs c) stack (p + 1) k hbal
        refine ⟨out2, st2, ?_, hlen, ?_⟩
        · simp only [bfRun, if_neg hc1, if_neg hc2]
          exact hrun
        · intro ctx hctx
          rcases hpos ctx hctx with hmem | ⟨hle, hget⟩
          · exact Or.inl hmem
          · refine Or.inr ⟨by omega, ?_⟩
            rw [show ctx.pos - p = (ctx.pos - (p + 1)) + 1 by omega]
            simpa using hget

theorem bfRun_err_of_balance_none : ∀ (rest : List Char) (out : List Instr)
    (stack : List LoopCtx) (p : Nat), bfBalance stack.length rest = none →
    ∃ q, bfRun out stack p rest = Except.error (BfError.unmatchedClose q) ∧
      p ≤ q ∧ rest[q - p]? = some ']' := by
  intro rest
  induction rest with
  | nil =>
    intro out stack p hbal
    simp [bfBalance] at hbal
  | cons c rest ih =>
    intro out stack p hbal
    by_cases hc1 : c = '['
    · simp only [bfBalance, if_pos hc1] at hbal
      obtain ⟨q, hrun, hle, hget⟩ :=
        ih loopEntry (LoopCtx.mk p out :: stack) (p + 1) (by simpa using hbal)
      refine ⟨q, ?_, by omega, ?_⟩
      · simp only [bfRun, if_pos hc1]
        exact hrun
      · rw [show q - p = (q - (p + 1)) + 1 by omega]
        simpa using hget
    · by_cases hc2 : c = ']'
      · cases stack with
        | nil =>
          refine ⟨p, ?_, Nat.le_refl _, by simp [hc2]⟩
          simp [bfRun, if_neg hc1, if_pos hc2]
        | cons ctx0 stack2 =>
          simp only [bfBalance, if_neg hc1, if_pos hc2, List.length_cons,
            Nat.add_sub_cancel, if_neg (Nat.succ_ne_zero _)] at hbal
          obtain ⟨q, hrun, hle, hget⟩ :=
            ih (ctx0.before ++ [closeLoop out]) stack2 (p + 1) hbal
          refine ⟨q, ?_, by omega, ?_⟩
          · simp only [bfRun, if_neg hc1, if_pos hc2]
            exact hrun
          · rw [show q - p = (q - (p + 1)) + 1 by omega]
            simpa using hget
      · simp only [bfBalance, if_neg hc1, if_neg hc2] at hbal
        obtain ⟨q, hrun, hle, hget⟩ := ih (out ++ cmdInstrs c) stack (p + 1) hbal
        refine ⟨q, ?_, by omega, ?_⟩
        · simp only [bfRun, if_neg hc1, if_neg hc2]
          exact hrun
        · rw [show q - p = (q - (p + 1)) + 1 by omega]
          simpa using hget

/-- C4: for every well-bracketed source program the compiler's loop-context
stack is empty when compilation ends and compilation succeeds; for every
source with an unmatched bracket, compilation fails with a source error
naming the position of the offending bracket (a `]` for an unmatched close,
a `[` for a loop still open at end of input) and produces no module. -/
theorem bracket_matching (src : List Char) :
    (wellBracketed src →
      ∃ out, bfRun [] [] 0 src = Except.ok (out, ([] : List LoopCtx)) ∧
        compileBf src = Except.ok out) ∧
    (¬ wellBracketed src →
      ∃ p, (compileBf src = Except.error (BfError.unmatchedClose p) ∧
              src[p]? = some ']') ∨
           (compileBf src = Except.error (BfError.unmatchedOpen p) ∧
              src[p]? = some '[')) := by
  constructor
  · intro hwb
    obtain ⟨out2, st2, hrun, hlen, _⟩ :=
      bfRun_ok_of_balance src [] [] 0 0 hwb
    have hst : st2 = [] := List.length_eq_zero.mp hlen
    subst hst
    exact ⟨out2, hrun, by simp [compileBf, hrun]⟩
  · intro hwb
    cases hbal : bfBalance 0 src with
    | none =>
      obtain ⟨q, hrun, _, hget⟩ := bfRun_err_of_balance_none src [] [] 0 hbal
      refine ⟨q, Or.inl ⟨?_, by simpa using hget⟩⟩
      simp [compileBf, hrun]
    | some k =>
      have hk : k ≠ 0 := by
        intro h0
        rw [h0] at hbal
        exact hwb hbal
      obtain ⟨out2, st2, hrun, hlen, hpos⟩ :=
        bfRun_ok_of_balance src [] [] 0 k hbal
      cases st2 with
      | nil =>
        simp at hlen
        omega
      | cons ctx tl =>
        rcases hpos ctx (List.mem_cons_self _ _) with hmem | ⟨_, hget⟩
        · cases hmem
        · refine ⟨ctx.pos, Or.inr ⟨?_, by simpa using hget⟩⟩
          simp [compileBf, hrun]

/-- A flat instruction: anything that opens no nested scope. -/
def flatInstr : Instr → Bool
  | Instr.block _ _ => false
  | Instr.loop _ _ => false
  | Instr.if_ _ _ _ => false
  | _ => true

mutual

/-- Shape of every instruction the tape-machine compiler emits: either a
flat instruction, or a compiled loop, i.e. a `block` with empty result type
whose single child is a `loop` whose body is the loop-entry test (cell test
plus skip branch `br_if` at depth 1), then a well-shaped body, then the
back-edge (cell reload plus `br_if` at depth 0). -/
inductive GoodInstr : Instr → Prop where
  | flat : ∀ i, flatInstr i = true → GoodInstr i
  | blk : ∀ mid, GoodSeq mid →
      GoodInstr (Instr.block BlockType.emptyblock
        [Instr.loop BlockType.emptyblock (loopEntry ++ mid ++ loopBack)])

/-- All instructions of the sequence are well shaped. -/
inductive GoodSeq : List Instr → Prop where
  | nil : GoodSeq []
  | cons : ∀ i l, GoodInstr i → GoodSeq l → GoodSeq (i :: l)

end

theorem GoodSeq.append : ∀ {a b : List Instr}, GoodSeq a → GoodSeq b →
    GoodSeq (a ++ b) := by
  intro a
  induction a with
  | nil =>
    intro b _ hb
    simpa using hb
  | cons i l ih =>
    intro b ha hb
    cases ha with
    | cons _ _ hi hl => exact GoodSeq.cons _ _ hi (ih hl hb)

theorem goodSeq_of_flat (l : List Instr) (h : ∀ i ∈ l, flatInstr i = true) :
    GoodSeq l := by
  induction l with
  | nil => exact GoodSeq.nil
  | cons i rest ih =>
    exact GoodSeq.cons i rest (GoodInstr.flat i (h i (List.mem_cons_self _ _)))
      (ih fun j hj => h j (List.mem_cons_of_mem _ hj))

theorem goodSeq_cmdInstrs (c : Char) : GoodSeq (cmdInstrs c) := by
  unfold cmdInstrs
  repeat' split
  all_goals exact goodSeq_of_flat _ (by decide)

theorem goodSeq_loopEntry : GoodSeq loopEntry :=
  goodSeq_of_flat _ (by decide)

/-- The invariant carried through the compiler's main loop: outside any loop
the accumulated output is well shaped; inside, it is the loop-entry test
followed by a well-shaped body. -/
def OutOk : List LoopCtx → List Instr → Prop
  | [], out => GoodSeq out
  | _ :: _, out => ∃ mid, out = loopEntry ++ mid ∧ GoodSeq mid

/-- The same invariant for every suspended context on the loop stack: the
bottom entry holds a well-shaped top-level prefix; every other entry holds
the loop-entry test followed by a well-shaped body prefix. -/
def StkOk : List LoopCtx → Prop
  | [] => True
  | [ctx] => GoodSeq ctx.before
  | ctx :: rest => (∃ mid, ctx.before = loopEntry ++ mid ∧ GoodSeq mid) ∧ StkOk rest

theorem bfRun_good : ∀ (rest : List Char) (out : List Instr) (stack : List LoopCtx)
    (p : Nat) (out2 : List Instr) (st2 : List LoopCtx),
    OutOk stack out → StkOk stack →
    bfRun out stack p rest = Except.ok (out2, st2) →
    OutOk st2 out2 ∧ StkOk st2 := by
  intro rest
  induction rest with
  | nil =>
    intro out stack p out2 st2 ho hs hrun
    simp only [bfRun, Except.ok.injEq, Prod.mk.injEq] at hrun
    rw [← hrun.1, ← hrun.2]
    exact ⟨ho, hs⟩
  | cons c rest ih =>
    intro out stack p out2 st2 ho hs hrun
    by_cases hc1 : c = '['
    · simp only [bfRun, if_pos hc1] at hrun
      refine ih loopEntry (LoopCtx.mk p out :: stack) (p + 1) out2 st2 ?_ ?_ hrun
      · exact ⟨[], by simp, GoodSeq.nil⟩
      · cases stack with
        | nil => exact ho
        | cons d tl => exact ⟨ho, hs⟩
    · by_cases hc2 : c = ']'
      · cases stack with
        | nil =>
          simp only [bfRun, if_neg hc1, if_pos hc2] at hrun
          cases hrun
        | cons ctx0 stack2 =>
          simp only [bfRun, if_neg hc1, if_pos hc2] at hrun
          obtain ⟨mid, hmid, hgood⟩ := ho
          have hblk : GoodInstr (closeLoop out) := by
            rw [hmid]
            simpa [closeLoop, List.append_assoc] using GoodInstr.blk mid hgood
          refine ih (ctx0.before ++ [closeLoop out]) stack2 (p + 1) out2 st2 ?_ ?_ hrun
          · cases stack2 with
            | nil =>
              have hb : GoodSeq ctx0.before := hs
              exact GoodSeq.append hb (GoodSeq.cons _ _ hblk GoodSeq.nil)
            | cons d tl =>
              obtain ⟨⟨mid2, hmid2, hgood2⟩, _⟩ := hs
              exact ⟨mid2 ++ [closeLoop out], by rw [hmid2, List.append_assoc],
                GoodSeq.append hgood2 (GoodSeq.cons _ _ hblk GoodSeq.nil)⟩
          · cases stack2 with
            | nil => trivial
            | cons d tl => exact hs.2
      · simp only [bfRun, if_neg hc1, if_neg hc2] at hrun
        refine ih (out ++ cmdInstrs c) stack (p + 1) out2 st2 ?_ hs hrun
        cases stack with
        | nil => exact GoodSeq.append ho (goodSeq_cmdInstrs c)
        | cons d tl =>
          obtain ⟨mid, hmid, hgood⟩ := ho
          exact ⟨mid ++ cmdInstrs c, by rw [hmid, List.append_assoc],
            GoodSeq.append hgood (goodSeq_cmdInstrs c)⟩

/-- C5: every successfully compiled program is a well-shaped instruction
sequence: every `[` became a `block` (empty result type) enclosing a `loop`
whose body starts with the loop-entry test — load the cell, `i32.eqz`, and a
skip branch `br_if` at relative depth 1, out of the `block` — and ends with
the back-edge — reload the cell and `br_if` at relative depth 0, back to the
`loop` label — with the loop context popped so that only these two branch
shapes occur, whatever the loop body does. -/
theorem compiled_loop_shape (src : List Char) (out : List Instr)
    (h : compileBf src = Except.ok out) :
    GoodSeq out ∧ Instr.br_if 1 ∈ loopEntry ∧ Instr.br_if 0 ∈ loopBack := by
  refine ⟨?_, by simp [loopEntry], by simp [loopBack]⟩
  have hrun : ∃ st2, bfRun [] [] 0 src = Except.ok (out, st2) ∧ st2 = [] := by
    unfold compileBf at h
    cases hr : bfRun [] [] 0 src with
    | error e => rw [hr] at h; cases h
    | ok pr =>
      rw [hr] at h
      rcases pr with ⟨o, st⟩
      cases st with
      | nil =>
        simp only [Except.ok.injEq] at h
        exact ⟨[], by rw [h], rfl⟩
      | cons a b => cases h
  obtain ⟨st2, hrun, hst⟩ := hrun
  subst hst
  exact (bfRun_good src [] [] 0 out [] GoodSeq.nil trivial hrun).1

/-- The compiler's result as an optional instruction sequence (the error is
dropped, keeping only whether and what it compiled). -/
def bfRunResult (out : List Instr) (stack : List LoopCtx) (p : Nat)
    (l : List Char) : Option (List Instr) :=
  match bfRun out stack p l with
  | Except.error _ => none
  | Except.ok (o, []) => some o
  | Except.ok (_, _ :: _) => none

/-- Reference compiler over command characters only: the same loop as
`bfRun`, with no source positions and contexts carrying just their saved
instruction prefix. -/
def bfPure : List Instr → List (List Instr) → List Char → Option (List Instr)
  | out, [], [] => some out
  | _, _ :: _, [] => none
  | out, stack, c :: rest =>
    if c = '[' then bfPure loopEntry (out :: stack) rest
    else if c = ']' then
      match stack with
      | [] => none
      | b :: st => bfPure (b ++ [closeLoop out]) st rest
    else bfPure (out ++ cmdInstrs c) stack rest

theorem compileBf_toOption (src : List Char) :
    (compileBf src).toOption = bfRunResult [] [] 0 src := by
  unfold compileBf bfRunResult
  cases bfRun [] [] 0 src with
  | error e => rfl
  | ok pr =>
    rcases pr with ⟨o, st⟩
    cases st <;> rfl

theorem cmdInstrs_eq_nil (c : Char) (h : isCmd c = false) : cmdInstrs c = [] := by
  have hm : c ∉ bfCommands := by simpa [isCmd] using h
  simp only [bfCommands, List.mem_cons, not_or] at hm
  obtain ⟨h1, h2, h3, h4, h5, h6, h7, h8⟩ := hm
  simp [cmdInstrs, h1, h2, h3, h4, h5, h6]

theorem bfPure_cons (out : List Instr) (stack : List (List Instr)) (c : Char)
    (l : List Char) :
    bfPure out stack (c :: l) =
      (if c = '[' then bfPure loopEntry (out :: stack) l
       else if c = ']' then
         (match stack with
          | [] => none
          | b :: st => bfPure (b ++ [closeLoop out]) st l)
       else bfPure (out ++ cmdInstrs c) stack l) := by
  cases stack <;> rfl

theorem bfRunResult_eq_pure : ∀ (l : List Char) (out : List Instr)
    (stack : List LoopCtx) (p : Nat),
    bfRunResult out stack p l = bfPure out (stack.map LoopCtx.before) (l.filter isCmd) := by
  intro l
  induction l with
  | nil =>
    intro out stack p
    cases stack <;> rfl
  | cons c rest ih =>
    intro out stack p
    by_cases hc1 : c = '['
    · have hcmd : isCmd c = true := by
        rw [hc1]
        rfl
      have hstep : bfRunResult out stack p (c :: rest) =
          bfRunResult loopEntry (LoopCtx.mk p out :: stack) (p + 1) rest := by
        unfold bfRunResult
        rw [show bfRun out stack p (c :: rest) =
          bfRun loopEntry (LoopCtx.mk p out :: stack) (p + 1) rest by
            simp only [bfRun, if_pos hc1]]
      rw [List.filter_cons_of_pos hcmd, hstep, ih, bfPure_cons, if_pos hc1]
      rfl
    · by_cases hc2 : c = ']'
      · have hcmd : isCmd c = true := by
          rw [hc2]
          rfl
        rw [List.filter_cons_of_pos hcmd, bfPure_cons, if_neg hc1, if_pos hc2]
        cases stack with
        | nil =>
          have hstep : bfRunResult out [] p (c :: rest) = none := by
            unfold bfRunResult
            rw [show bfRun out [] p (c :: rest) =
              Except.error (BfError.unmatchedClose p) by
                simp only [bfRun, if_neg hc1, if_pos hc2]]
          rw [hstep]
          rfl
        | cons ctx0 stack2 =>
          have hstep : bfRunResult out (ctx0 :: stack2) p (c :: rest) =
              bfRunResult (ctx0.before ++ [closeLoop out]) stack2 (p + 1) rest := by
            unfold bfRunResult
            rw [show bfRun out (ctx0 :: stack2) p (c :: rest) =
              bfRun (ctx0.before ++ [closeLoop out]) stack2 (p + 1) rest by
                simp only [bfRun, if_neg hc1, if_pos hc2]]
          rw [hstep, ih]
          rfl
      · have hstep : bfRunResult out stack p (c :: rest) =
            bfRunResult (out ++ cmdInstrs c) stack (p + 1) rest := by
          unfold bfRunResult
          rw [show bfRun out stack p (c :: rest) =
            bfRun (out ++ cmdInstrs c) stack (p + 1) rest by
              simp only [bfRun, if_neg hc1, if_neg hc2]]
        rw [hstep, ih]
        cases hcmd : isCmd c with
        | true =>
          rw [List.filter_cons_of_pos hcmd, bfPure_cons, if_neg hc1, if_neg hc2]
        | false =>
          rw [List.filter_cons_of_neg (by simp [hcmd]), cmdInstrs_eq_nil c hcmd,
            List.append_nil]

/-- C9: the compiler's input language has exactly the 8 distinct command
characters; compilation depends only on the subsequence of those command
characters, so any two source texts with the same command subsequence
compile to the same result — every other character is an insignificant
comment. -/
theorem comment_insensitivity :
    bfCommands.length = 8 ∧ bfCommands.Nodup ∧
    ∀ (s1 s2 : List Char), s1.filter isCmd = s2.filter isCmd →
      (compileBf s1).toOption = (compileBf s2).toOption := by
  refine ⟨rfl, by decide, ?_⟩
  intro s1 s2 h
  rw [compileBf_toOption, compileBf_toOption, bfRunResult_eq_pure, bfRunResult_eq_pure,
    List.map_nil, h]

theorem assemble_header_and_order_witness :
    Module.to_bytes [] (Module.mk [Section.startSec 0]) =
      some [0x00, 0x61, 0x73, 0x6d, 0x01, 0x00, 0x00, 0x00, 8, 1, 0] ∧
    ((Module.mk [Section.startSec 0]).sections.map Section.kindId).Nodup ∧
    ([0x00, 0x61, 0x73, 0x6d, 0x01, 0x00, 0x00, 0x00, 8, 1, 0].take 8 =
      wasmMagic ++ wasmVersion ∧ wasmMagic.length = 4 ∧ wasmVersion.length = 4) :=
  ⟨rfl, by decide, (assemble_header_and_order [] (Module.mk [Section.startSec 0])
    [0x00, 0x61, 0x73, 0x6d, 0x01, 0x00, 0x00, 0x00, 8, 1, 0] rfl (by decide)).1⟩

theorem assemble_deterministic_witness :
    Module.to_bytes [] (Module.mk [Section.startSec 0]) =
      Module.to_bytes [] (Module.mk [Section.startSec 0]) :=
  assemble_deterministic [] (Module.mk [Section.startSec 0])
    (Module.mk [Section.startSec 0]) rfl

theorem bracket_matching_witness :
    (∃ out, bfRun [] [] 0 ['[', '+', ']'] = Except.ok (out, ([] : List LoopCtx)) ∧
      compileBf ['[', '+', ']'] = Except.ok out) ∧
    (∃ p, (compileBf [']'] = Except.error (BfError.unmatchedClose p) ∧
            [']'][p]? = some ']') ∨
          (compileBf [']'] = Except.error (BfError.unmatchedOpen p) ∧
            [']'][p]? = some '[')) :=
  ⟨(bracket_matching ['[', '+', ']']).1 (by decide),
   (bracket_matching [']']).2 (by decide)⟩

theorem compiled_loop_shape_witness :
    GoodSeq [closeLoop (loopEntry ++ cmdInstrs '+')] ∧
      Instr.br_if 1 ∈ loopEntry ∧ Instr.br_if 0 ∈ loopBack :=
  compiled_loop_shape ['[', '+', ']'] [closeLoop (loopEntry ++ cmdInstrs '+')] rfl

theorem function_index_space_witness :
    1 < demoImports.length ∧ (funcSpace demoImports demoFuncs).Nodup ∧
    resolveFunc (funcSpace demoImports demoFuncs) "print_second" = some 1 :=
  ⟨by decide, by decide,
   function_index_space.1 demoImports demoFuncs 1 (by decide) (by decide)⟩

theorem encode_fail_fast_witness :
    Section.codeSec [FunctionDef.mk [] [Instr.br 5]] ∈
      (Module.mk [Section.codeSec [FunctionDef.mk [] [Instr.br 5]]]).sections ∧
    sectionValid [] (Section.codeSec [FunctionDef.mk [] [Instr.br 5]]) = false ∧
    Module.to_bytes [] (Module.mk [Section.codeSec [FunctionDef.mk [] [Instr.br 5]]]) =
      none :=
  ⟨List.mem_cons_self _ _, rfl,
   encode_fail_fast.2 [] (Module.mk [Section.codeSec [FunctionDef.mk [] [Instr.br 5]]])
     (Section.codeSec [FunctionDef.mk [] [Instr.br 5]]) (List.mem_cons_self _ _) rfl⟩

theorem scope_terminator_encoding_witness :
    encodeSeq [] 1 [Instr.nop] = some [0x01] ∧
    encodeInstr [] 0 (Instr.block BlockType.emptyblock [Instr.nop]) =
      some (0x02 :: BlockType.emptyblock.tag :: ([0x01] ++ [0x0b])) :=
  ⟨rfl, (scope_terminator_encoding [] 0 BlockType.emptyblock [Instr.nop] [] [0x01] []
    rfl rfl).1⟩

theorem comment_insensitivity_witness :
    List.filter isCmd ['+', 'x', '+'] = List.filter isCmd ['+', '+'] ∧
    (compileBf ['+', 'x', '+']).toOption = (compileBf ['+', '+']).toOption :=
  ⟨rfl, comment_insensitivity.2.2 ['+', 'x', '+'] ['+', '+'] rfl⟩

theorem function_code_alignment_witness :
    0 < demoFuncs.length ∧
    (buildModule demoImports demoFuncs).functionIndices.length =
      (buildModule demoImports demoFuncs).codeDefs.length :=
  ⟨by decide, (function_code_alignment demoImports demoFuncs 0 (by decide)).1⟩

end Wasmfun
